import Mathlib

/-!
Verification of the vector-to-tile conversion pipeline of this repository
(src/tools/shp_to_tiles.py, plus the building-height resolution of
src/tools/geojson_to_tiles.py).

The Python code is embedded shallowly over exact rational arithmetic:
every coordinate is a pair of rationals, `math.floor(x / tile_size)`
becomes `Int.floor` on `ℚ`, and comparisons of Euclidean distances
(`math.hypot`) against nonnegative thresholds are expressed through the
equivalent comparisons of squared distances, as noted at each site.
-/

/-- A planar point, as the (x, y) pairs used throughout shp_to_tiles.py. -/
abbrev Pt := ℚ × ℚ

/-- Embedding of `tile_xy` (shp_to_tiles.py line 42): floor-division of a point's
coordinates by the tile size. -/
def tile_xy (x y tile_size : ℚ) : ℤ × ℤ :=
  (⌊x / tile_size⌋, ⌊y / tile_size⌋)

/-- Embedding of `tile_center` (shp_to_tiles.py line 46). -/
def tile_center (tx ty : ℤ) (tile_size : ℚ) : ℚ × ℚ :=
  ((tx : ℚ) * tile_size + tile_size * (1/2), (ty : ℚ) * tile_size + tile_size * (1/2))

/-- Embedding of `interpolate_point` (shp_to_tiles.py line 265). -/
def interpolate_point (p1 p2 : Pt) (t : ℚ) : Pt :=
  (p1.1 + t * (p2.1 - p1.1), p1.2 + t * (p2.2 - p1.2))

/-- Loop state of `split_polyline_by_tiles`: fragments emitted so far (in
emission order, each with the tile it is keyed to), the current segment, and
the current tile.  The source accumulates the emitted fragments into a dict
keyed by tile, preserving per-tile emission order; that view is recovered by
`fragments_for` below. -/
structure SplitState where
  emitted : List ((ℤ × ℤ) × List Pt)
  seg : List Pt
  tile : ℤ × ℤ
deriving DecidableEq

/-- Embedding of `add_segment` inside `split_polyline_by_tiles` (line 281): emit the
segment under the given tile only if it has at least 2 points. -/
def add_segment (emitted : List ((ℤ × ℤ) × List Pt)) (tile : ℤ × ℤ)
    (segment : List Pt) : List ((ℤ × ℤ) × List Pt) :=
  if 2 ≤ segment.length then emitted ++ [(tile, segment)] else emitted

/-- Embedding of `num_steps = max(2, int(dist / (tile_size * 0.4)))` (line 307), with
`dist = math.hypot dx dy`; here `d2` is the squared distance and, for a
positive tile size, `⌊√d2 / c⌋ = Nat.sqrt ⌊d2 / c^2⌋` with `c = 0.4 * tile_size`. -/
def num_steps_for (d2 tile_size : ℚ) : ℕ :=
  max 2 (Nat.sqrt (⌊d2 / (tile_size * (2/5))^2⌋.toNat))

/-- One iteration of the interpolation loop (lines 308-320): the point at
parameter `step / n` is computed, and if it falls in a different tile the
current segment is cut there. -/
def stepInterp (ts : ℚ) (prev_pt curr_pt : Pt) (n : ℕ) (st : SplitState)
    (step : ℕ) : SplitState :=
  let t : ℚ := (step : ℚ) / (n : ℚ)
  let interp_pt := interpolate_point prev_pt curr_pt t
  let interp_tile := tile_xy interp_pt.1 interp_pt.2 ts
  if interp_tile ≠ st.tile then
    { emitted := add_segment st.emitted st.tile (st.seg ++ [interp_pt])
      seg := [interp_pt]
      tile := interp_tile }
  else st

/-- Body of the main loop of `split_polyline_by_tiles` (lines 290-329), for
one consecutive vertex pair.  The comparison `dist > tile_size * 0.5` of
line 305 is expressed on squared distances (equivalent for a positive tile
size, the regime of every theorem below). -/
def processPoint (ts : ℚ) (st : SplitState) (pp : Pt × Pt) : SplitState :=
  let prev_pt := pp.1
  let curr_pt := pp.2
  let curr_tile := tile_xy curr_pt.1 curr_pt.2 ts
  if curr_tile = st.tile then
    { st with seg := st.seg ++ [curr_pt] }
  else
    let dx := curr_pt.1 - prev_pt.1
    let dy := curr_pt.2 - prev_pt.2
    let d2 := dx * dx + dy * dy
    let st1 :=
      if (ts * (1/2))^2 < d2 then
        let n := num_steps_for d2 ts
        (List.range' 1 (n - 1)).foldl (stepInterp ts prev_pt curr_pt n) st
      else st
    if curr_tile ≠ st1.tile then
      { emitted := add_segment st1.emitted st1.tile (st1.seg ++ [curr_pt])
        seg := [curr_pt]
        tile := curr_tile }
    else { st1 with seg := st1.seg ++ [curr_pt] }

/-- Embedding of `split_polyline_by_tiles` (shp_to_tiles.py lines 270-334), returning the
emitted (tile, fragment) pairs in emission order. -/
def split_polyline_by_tiles (pts : List Pt) (tile_size : ℚ) :
    List ((ℤ × ℤ) × List Pt) :=
  match pts with
  | [] => []
  | [_] => []
  | p0 :: rest =>
      let st0 : SplitState :=
        { emitted := [], seg := [p0], tile := tile_xy p0.1 p0.2 tile_size }
      let stF := ((p0 :: rest).zip rest).foldl (processPoint tile_size) st0
      add_segment stF.emitted stF.tile stF.seg

/-- The per-tile view of the result dict: the fragments stored under a tile
key, in emission order. -/
def fragments_for (r : List ((ℤ × ℤ) × List Pt)) (tile : ℤ × ℤ) :
    List (List Pt) :=
  (r.filter (fun e => e.1 = tile)).map Prod.snd

/-- Squared version of `point_line_distance` (shp_to_tiles.py lines 362-374):
the source compares distances (`math.hypot`) only against other distances or
against the nonnegative simplification tolerance, so squared values carry the
same information. -/
def point_line_distance_sq (p a b : Pt) : ℚ :=
  let dx := b.1 - a.1
  let dy := b.2 - a.2
  if dx * dx + dy * dy < 1 / 10^12 then
    (p.1 - a.1) * (p.1 - a.1) + (p.2 - a.2) * (p.2 - a.2)
  else
    let t0 := ((p.1 - a.1) * dx + (p.2 - a.2) * dy) / (dx * dx + dy * dy)
    let t := if t0 < 0 then 0 else if 1 < t0 then 1 else t0
    let cx := a.1 + t * dx
    let cy := a.2 + t * dy
    (p.1 - cx) * (p.1 - cx) + (p.2 - cy) * (p.2 - cy)

/-- The scan of `simplify_douglas_peucker`'s inner loop (lines 395-403): the
first index in `(s, e)` attaining the maximum distance from the chord
`pts[s]`-`pts[e]`, together with that (squared) maximum; `-1` is the
sentinel initial value of `max_dist`, as in the source. -/
def findFarthest (pts : List Pt) (s e : ℕ) : ℚ × Option ℕ :=
  (List.range' (s + 1) (e - (s + 1))).foldl
    (fun acc i =>
      let d := point_line_distance_sq (pts.getD i (0, 0)) (pts.getD s (0, 0))
        (pts.getD e (0, 0))
      if acc.1 < d then (d, some i) else acc)
    (-1, none)

/-- The retain/discard marking of `simplify_douglas_peucker` (lines 388-407).
The source drives this with an explicit work stack; the order in which
intervals are popped does not affect which indices get marked, so the
recursion over intervals computes the same set.  `max_dist > epsilon` is
the squared comparison `eps < 0 ∨ eps² < max_dist_sq` (the distance is
nonnegative).  The bound check on `idx` is needed for termination; the scan
only ever selects indices strictly between `s` and `e`, so the else arm is
unreachable. -/
def dpMark (pts : List Pt) (eps : ℚ) (s e : ℕ) : Finset ℕ :=
  match (findFarthest pts s e).2 with
  | none => ∅
  | some idx =>
    if eps < 0 ∨ eps * eps < (findFarthest pts s e).1 then
      if h : s < idx ∧ idx < e then
        {idx} ∪ dpMark pts eps s idx ∪ dpMark pts eps idx e
      else ∅
    else ∅
termination_by e - s
decreasing_by
  all_goals omega

/-- Embedding of `[p for i, p in enumerate(pts) if keep[i]]` (line 409): select the
elements whose (absolute) index is in the keep set, `i` being the index of
the first element of the list. -/
def selectIdx (K : Finset ℕ) : ℕ → List Pt → List Pt
  | _, [] => []
  | i, a :: l => if i ∈ K then a :: selectIdx K (i + 1) l else selectIdx K (i + 1) l

/-- The open-polyline core of `simplify_douglas_peucker`: both endpoints are
kept, plus everything marked by the interval recursion. -/
def dpOpen (pts : List Pt) (epsilon : ℚ) : List Pt :=
  let keep := insert 0 (insert (pts.length - 1) (dpMark pts epsilon 0 (pts.length - 1)))
  selectIdx keep 0 pts

/-- Embedding of `simplify_douglas_peucker` (shp_to_tiles.py lines 377-412).  A closed
ring (`points[0] == points[-1]`) is simplified with the duplicate closing
point removed and restored afterwards; inputs shorter than 4 points (before
or after that removal) are returned unchanged.  `out` always keeps index 0,
so the `none` arm of the closed case is unreachable. -/
def simplify_douglas_peucker (points : List Pt) (epsilon : ℚ) : List Pt :=
  if points.length < 4 then points
  else
    let pts := if points.head? = points.getLast? then points.dropLast else points
    if pts.length < 4 then points
    else
      let out := dpOpen pts epsilon
      if points.head? = points.getLast? then
        match out.head? with
        | none => out
        | some h => out ++ [h]
      else out

/-- Embedding of `ring_without_duplicate_closure` (shp_to_tiles.py lines 415-418). -/
def ring_without_duplicate_closure (points : List Pt) : List Pt :=
  if 2 ≤ points.length ∧ points.head? = points.getLast? then points.dropLast
  else points

/-- Embedding of `polygon_area` (shp_to_tiles.py lines 351-359): absolute shoelace area. -/
def polygon_area (points : List Pt) : ℚ :=
  if points.length < 3 then 0
  else
    |(List.range points.length).foldl
        (fun a i =>
          let p0 := points.getD i (0, 0)
          let p1 := points.getD ((i + 1) % points.length) (0, 0)
          a + (p0.1 * p1.2 - p1.1 * p0.2))
        0| * (1/2)

/-- One edge test of `point_in_polygon`'s ray casting (line 432), for query
point `p` and edge endpoints `pi` (current) and `pj` (previous). -/
def pip_edge (p pi pj : Pt) : Bool :=
  decide ((p.2 < pi.2) ≠ (p.2 < pj.2)) &&
    decide (p.1 < (pj.1 - pi.1) * (p.2 - pi.2) / (pj.2 - pi.2 + 1 / 10^30) + pi.1)

/-- Embedding of `point_in_polygon` (shp_to_tiles.py lines 421-436): even-odd ray casting
over the edges `(poly[i], poly[j])` with `j` one behind `i` cyclically
(starting at `j = n - 1`), on a ring without duplicated closure. -/
def point_in_polygon (p : Pt) (poly : List Pt) : Bool :=
  if poly.length < 3 then false
  else
    (poly.zip (poly.getLastD (0, 0) :: poly.dropLast)).foldl
      (fun inside e => if pip_edge p e.1 e.2 then !inside else inside) false

/-- Python `max(xs)` over a nonempty list (0 for the empty list, which the
callers below never pass). -/
def listMax : List ℚ → ℚ
  | [] => 0
  | a :: l => l.foldl max a

/-- Python `min(xs)` over a nonempty list. -/
def listMin : List ℚ → ℚ
  | [] => 0
  | a :: l => l.foldl min a

/-- One building ring through the buildings branch of `main`
(shp_to_tiles.py lines 755-802, default non-rectangle path, no clip
polygon): the part-size guard, the minimum-area and maximum-extent filters,
simplification, closure removal, the post-simplification size guard,
centroid computation, tile assignment and re-expression of the vertices
relative to the tile center.  `pts` are already projected, origin-relative
planar coordinates. -/
def process_building_ring (pts : List Pt)
    (tile_size simplify_meters min_building_area max_building_extent : ℚ) :
    Option ((ℤ × ℤ) × List Pt) :=
  if pts.length < 3 then none
  else if polygon_area pts < min_building_area then none
  else
    let xs := pts.map Prod.fst
    let ys := pts.map Prod.snd
    let extent_x := listMax xs - listMin xs
    let extent_y := listMax ys - listMin ys
    if max_building_extent < max extent_x extent_y then none
    else
      let ring := ring_without_duplicate_closure
        (simplify_douglas_peucker pts simplify_meters)
      if ring.length < 3 then none
      else
        let cx := (ring.map Prod.fst).sum / (ring.length : ℚ)
        let cy := (ring.map Prod.snd).sum / (ring.length : ℚ)
        let tk := tile_xy cx cy tile_size
        let c := tile_center tk.1 tk.2 tile_size
        some (tk, ring.map (fun q => (q.1 - c.1, q.2 - c.2)))

/-- Part reconstruction of `iter_shp_records` (shp_to_tiles.py lines
148-166): slice the flat point array at the recorded start indices (the
final part ends at the total point count), keeping only slices with at
least 2 points.  The source's inline conditional append builds the same
list as mapping then filtering. -/
def assemble_parts (part_starts : List ℕ) (points : List Pt) :
    List (List Pt) :=
  let starts := if part_starts = [] then [0] else part_starts
  ((List.range starts.length).map (fun p =>
      let s := starts.getD p 0
      let e := if p + 1 < starts.length then starts.getD (p + 1) 0
        else points.length
      (points.drop s).take (e - s))).filter (fun seg => 2 ≤ seg.length)

/-- Embedding of `ShpRecord` (shp_to_tiles.py lines 97-100). -/
structure ShpRecordQ where
  shape_type : ℤ
  parts : List (List Pt)
deriving DecidableEq

/-- The per-record logic of `iter_shp_records` (lines 124-168) after the
binary fields (shape type, part start indices, flat point list) have been
read: null shapes and unrecognized shape-type codes are skipped (`none`),
recognized records are yielded with their reassembled parts. -/
def iter_shp_record (shape_type : ℤ) (part_starts : List ℕ)
    (points : List Pt) : Option ShpRecordQ :=
  if shape_type = 0 then none
  else if ¬(shape_type = 3 ∨ shape_type = 5 ∨ shape_type = 13 ∨ shape_type = 15)
    then none
  else some ⟨shape_type, assemble_parts part_starts points⟩

/-- State of `LruAppendWriter` (shp_to_tiles.py lines 200-222):
`openKeys` is the ordered key list of the `OrderedDict` of open files
(least-recently-written first), and `fs` the durable per-path contents.  A
write to an open channel reaches the file when the channel is closed (on
eviction or final close) and reopening uses append mode, so the model
applies each written line to `fs` directly. -/
structure LruState where
  openKeys : List String
  fs : String → List String

/-- Embedding of `LruAppendWriter.append_line` (lines 205-217): open on first write or
move the key to the most-recent end, append the line, then evict (close)
the least-recently-written channel if the open-channel bound is exceeded. -/
def append_line (max_open : ℕ) (st : LruState) (path line : String) :
    LruState :=
  let ks := if path ∈ st.openKeys then st.openKeys.erase path ++ [path]
    else st.openKeys ++ [path]
  let fs2 := fun p => if p = path then st.fs p ++ [line] else st.fs p
  if max_open < ks.length then { openKeys := ks.drop 1, fs := fs2 }
  else { openKeys := ks, fs := fs2 }

/-- A whole stream of `append_line` calls, in order. -/
def runWriter (max_open : ℕ) (st : LruState) (ops : List (String × String)) :
    LruState :=
  ops.foldl (fun s op => append_line max_open s op.1 op.2) st

/-- Python `str.lower()` restricted to ASCII case mapping, over the
character list (the attribute values compared here are ASCII). -/
def lowerStr (s : String) : String := String.mk (s.data.map Char.toLower)

/-- Python `str.strip()`: whitespace removed from both ends. -/
def stripStr (s : String) : String :=
  String.mk (((s.data.dropWhile Char.isWhitespace).reverse.dropWhile
    Char.isWhitespace).reverse)

/-- Python `s.replace("m", "")`: every occurrence of the single-character
pattern removed. -/
def strip_m (s : String) : String := String.mk (s.data.filter (fun c => c ≠ 'm'))

/-- Embedding of `building_height_default` (shp_to_tiles.py lines 225-242): the
building-type → default-height table, with default 12.0. -/
def building_height_default (building_type : String) : ℚ :=
  let t := lowerStr building_type
  (([("apartments", (24 : ℚ)), ("residential", 12), ("house", 9),
     ("detached", 9), ("commercial", 18), ("retail", 15), ("office", 30),
     ("industrial", 12), ("warehouse", 10), ("hospital", 24),
     ("school", 15), ("university", 18), ("hotel", 30)] :
      List (String × ℚ)).lookup t).getD 12

/-- A JSON attribute value, as far as `building_height_m` of
geojson_to_tiles.py inspects it: a number or a string. -/
inductive JsonVal where
  | num (q : ℚ)
  | str (s : String)
deriving DecidableEq

/-- Python truthiness of such a value (`0`, `0.0` and `""` are falsy). -/
def jsonTruthy : JsonVal → Bool
  | .num q => q ≠ 0
  | .str s => s ≠ ""

/-- Python `a or b` over optional attribute values (`None` and falsy values
fall through to `b`). -/
def pyOr (a b : Option JsonVal) : Option JsonVal :=
  match a with
  | some v => if jsonTruthy v then some v else b
  | none => b

/-- Digits-only decimal parser used to model Python `float(s)` on the plain
decimal literals relevant here: optional sign, then `digits`, `digits.`,
`.digits` or `digits.digits`; anything else fails (`None`), as `float`
raises. -/
def parseDecimal (s : String) : Option ℚ :=
  let cs := s.toList
  let (sign, rest) : ℚ × List Char :=
    match cs with
    | '-' :: t => (-1, t)
    | '+' :: t => (1, t)
    | _ => (1, cs)
  let intPart := rest.takeWhile (fun c => c.isDigit)
  let rest2 := rest.drop intPart.length
  let (fracPart, rest3) : List Char × List Char :=
    match rest2 with
    | '.' :: t => (t.takeWhile (fun c => c.isDigit), (t.drop (t.takeWhile (fun c => c.isDigit)).length))
    | _ => ([], rest2)
  if rest3 = [] ∧ (intPart ≠ [] ∨ fracPart ≠ []) ∧
      (rest2 = [] ∨ rest2.head? = some '.') then
    let iv : ℕ := intPart.foldl (fun a c => a * 10 + (c.toNat - 48)) 0
    let fv : ℕ := fracPart.foldl (fun a c => a * 10 + (c.toNat - 48)) 0
    some (sign * ((iv : ℚ) + (fv : ℚ) / (10 : ℚ)^fracPart.length))
  else none

/-- The height-relevant attributes of a GeoJSON building feature:
`height`, `building:levels` and `levels`. -/
structure BuildingProps where
  height : Option JsonVal
  blevels : Option JsonVal
  levels : Option JsonVal

/-- Embedding of `building_height_m` (geojson_to_tiles.py lines 121-140): a positive
numeric `height` wins; a textual `height` is parsed with an `"m"` suffix
stripped; otherwise `building:levels or levels` at 3.0 meters per level;
default 12.0.  Parse failures fall through, as the source's `except: pass`. -/
def building_height_m (props : Option BuildingProps) : ℚ :=
  match props with
  | none => 12
  | some pr =>
    let fromHeight : Option ℚ :=
      match pr.height with
      | some (.num h) => if 0 < h then some h else none
      | some (.str s) => parseDecimal (stripStr (strip_m s))
      | none => none
    match fromHeight with
    | some v => v
    | none =>
      match pyOr pr.blevels pr.levels with
      | some (.num l) => if 0 < l then l * 3 else 12
      | some (.str s) =>
        match parseDecimal (stripStr s) with
        | some v => v * 3
        | none => 12
      | none => 12

/-- Presence of one category's `.shp`/`.dbf` file pair in the shape
directory. -/
structure CategoryFiles where
  shp : Bool
  dbf : Bool
deriving DecidableEq

/-- A category block of `main` runs only when both companion files exist
(e.g. shp_to_tiles.py line 751). -/
def category_processed (c : CategoryFiles) : Bool := c.shp && c.dbf

/-- How many input categories `main` finds. -/
def categories_found (cats : List CategoryFiles) : ℕ :=
  (cats.filter category_processed).length

/-- The exit status of `shp_to_tiles.main`: every successful path ends at
`return 0` (line 1016); there is no branch on how many categories were
found. -/
def main_exit_status (cats : List CategoryFiles) : ℤ := 0

/-- The railways branch of `main` (shp_to_tiles.py lines 929-953) for one
record: drop it unless `type` lowercases to `"rail"` and the stripped
`name` is non-empty, then split each part with at least 2 points by tile
and re-express every fragment relative to its tile center.  `parts` are
already projected origin-relative coordinates; the optional clip filter is
absent (it keeps everything when no clip polygon is configured). -/
def process_railway_record (ts : ℚ) (rtype rname : String)
    (parts : List (List Pt)) : List ((ℤ × ℤ) × List Pt) :=
  if lowerStr rtype ≠ "rail" then []
  else if stripStr rname = "" then []
  else
    (parts.filter (fun part => 2 ≤ part.length)).flatMap (fun part =>
      (split_polyline_by_tiles part ts).map (fun e =>
        let c := tile_center e.1.1 e.1.2 ts
        (e.1, e.2.map (fun q => (q.1 - c.1, q.2 - c.2)))))

/-- Every emitted fragment's vertices, except possibly its last one, lie in
the tile the fragment is keyed to. -/
def FragsOk (ts : ℚ) (l : List ((ℤ × ℤ) × List Pt)) : Prop :=
  ∀ e ∈ l, ∀ v ∈ e.2.dropLast, tile_xy v.1 v.2 ts = e.1

/-- All vertices of the current segment lie in the current tile. -/
def SegInTile (ts : ℚ) (st : SplitState) : Prop :=
  ∀ v ∈ st.seg, tile_xy v.1 v.2 ts = st.tile

/-- Loop invariant for the tile-confinement property. -/
def InvA (ts : ℚ) (st : SplitState) : Prop :=
  FragsOk ts st.emitted ∧ SegInTile ts st

/-- Consecutive fragments (in emission order) share their boundary point:
the last point of each fragment is the first point of the next. -/
def SharesEndpoints (l : List ((ℤ × ℤ) × List Pt)) : Prop :=
  l.Chain' (fun a b => a.2.getLast? = b.2.head?)

/-- Loop invariant for the endpoint-sharing property: the emitted fragments
chain up, the current segment is nonempty, and it starts where the last
emitted fragment ended. -/
def InvB (st : SplitState) : Prop :=
  SharesEndpoints st.emitted ∧ st.seg ≠ [] ∧
    ∀ e ∈ st.emitted.getLast?, e.2.getLast? = st.seg.head?

theorem foldl_preserve {α β : Type} {P : α → Prop} (f : α → β → α)
    (h : ∀ a b, P a → P (f a b)) :
    ∀ (l : List β) (a : α), P a → P (l.foldl f a)
  | [], _, ha => ha
  | b :: l, a, ha => foldl_preserve f h l (f a b) (h a b ha)

theorem fragsOk_add_segment {ts : ℚ} {em : List ((ℤ × ℤ) × List Pt)}
    {tk : ℤ × ℤ} {seg : List Pt} (h1 : FragsOk ts em)
    (h2 : ∀ v ∈ seg.dropLast, tile_xy v.1 v.2 ts = tk) :
    FragsOk ts (add_segment em tk seg) := by
  unfold add_segment
  split
  · intro e he
    rcases List.mem_append.1 he with hm | hm
    · exact h1 e hm
    · rcases List.mem_singleton.1 hm with rfl
      exact h2
  · exact h1

theorem invA_stepInterp {ts : ℚ} {st : SplitState} (p c : Pt) (n k : ℕ)
    (h : InvA ts st) : InvA ts (stepInterp ts p c n st k) := by
  unfold stepInterp
  dsimp only
  split
  · refine ⟨fragsOk_add_segment h.1 ?_, ?_⟩
    · intro v hv
      rw [List.dropLast_concat] at hv
      exact h.2 v hv
    · intro v hv
      rcases List.mem_singleton.1 hv with rfl
      rfl
  · exact h

theorem invA_cut {ts : ℚ} (c : Pt) (st1 : SplitState) (h1 : InvA ts st1) :
    InvA ts (if tile_xy c.1 c.2 ts ≠ st1.tile then
        { emitted := add_segment st1.emitted st1.tile (st1.seg ++ [c]),
          seg := [c], tile := tile_xy c.1 c.2 ts }
      else { st1 with seg := st1.seg ++ [c] }) := by
  split
  · next hne =>
    refine ⟨fragsOk_add_segment h1.1 ?_, ?_⟩
    · intro v hv
      rw [List.dropLast_concat] at hv
      exact h1.2 v hv
    · intro v hv
      rcases List.mem_singleton.1 hv with rfl
      rfl
  · next hne =>
    refine ⟨h1.1, ?_⟩
    intro v hv
    rcases List.mem_append.1 hv with hm | hm
    · exact h1.2 v hm
    · rcases List.mem_singleton.1 hm with rfl
      exact not_ne_iff.1 hne

theorem invA_processPoint {ts : ℚ} {st : SplitState} (pp : Pt × Pt)
    (h : InvA ts st) : InvA ts (processPoint ts st pp) := by
  unfold processPoint
  dsimp only
  split
  · next hcc =>
    refine ⟨h.1, ?_⟩
    intro v hv
    rcases List.mem_append.1 hv with hm | hm
    · exact h.2 v hm
    · rcases List.mem_singleton.1 hm with rfl
      exact hcc
  · next hcc =>
    refine invA_cut pp.2 _ ?_
    split
    · exact foldl_preserve _ (fun a b ha => invA_stepInterp _ _ _ _ ha) _ _ h
    · exact h

theorem split_fragsOk (pts : List Pt) (ts : ℚ) :
    FragsOk ts (split_polyline_by_tiles pts ts) := by
  unfold split_polyline_by_tiles
  match pts with
  | [] => intro e he; cases he
  | [p] => intro e he; cases he
  | p0 :: p1 :: rest =>
    dsimp only
    have h0 : InvA ts
        { emitted := [], seg := [p0], tile := tile_xy p0.1 p0.2 ts } := by
      refine ⟨fun e he => absurd he (List.not_mem_nil e), ?_⟩
      intro v hv
      rcases List.mem_singleton.1 hv with rfl
      rfl
    have hF : InvA ts (((p0 :: p1 :: rest).zip (p1 :: rest)).foldl
        (processPoint ts)
        { emitted := [], seg := [p0], tile := tile_xy p0.1 p0.2 ts }) :=
      foldl_preserve _ (fun a b ha => invA_processPoint b ha) _ _ h0
    refine fragsOk_add_segment hF.1 ?_
    intro v hv
    exact hF.2 v (List.dropLast_sublist _ |>.mem hv)

theorem split3000_eval : split_polyline_by_tiles [((0 : ℚ), 0), (3000, 0)] 1000 =
    [((0, 0), [(0, 0), (9000/7, 0)]),
     ((1, 0), [(9000/7, 0), (15000/7, 0)]),
     ((2, 0), [(15000/7, 0), (3000, 0)])] := by
  have hsq : Nat.sqrt (Int.toNat 56) = 7 := by
    rw [show Int.toNat 56 = 56 from rfl]
    norm_num
  have hmax : (2 : ℕ) ⊔ 7 = 7 := by decide
  norm_num [split_polyline_by_tiles, processPoint, stepInterp, add_segment,
    tile_xy, interpolate_point, num_steps_for, Int.floor_eq_iff,
    List.range', hsq, hmax, Prod.ext_iff]

theorem invB_emit {em : List ((ℤ × ℤ) × List Pt)} {seg : List Pt} {c : Pt}
    (h1 : SharesEndpoints em) (h2 : seg ≠ [])
    (h3 : ∀ e ∈ em.getLast?, e.2.getLast? = seg.head?) (tk nt : ℤ × ℤ) :
    InvB { emitted := add_segment em tk (seg ++ [c]), seg := [c], tile := nt } := by
  have hlen : 2 ≤ (seg ++ [c]).length := by
    rcases seg with _ | ⟨s0, srest⟩
    · exact absurd rfl h2
    · simp
  have hemit : add_segment em tk (seg ++ [c]) = em ++ [(tk, seg ++ [c])] := by
    unfold add_segment
    rw [if_pos hlen]
  refine ⟨?_, by simp, ?_⟩
  · rw [hemit]
    unfold SharesEndpoints
    rw [List.chain'_append]
    refine ⟨h1, List.chain'_singleton _, ?_⟩
    intro x hx y hy
    simp only [List.head?_cons, Option.mem_some_iff] at hy
    subst hy
    rw [h3 x hx]
    rcases seg with _ | ⟨s0, srest⟩
    · exact absurd rfl h2
    · rfl
  · intro e he
    rw [hemit, List.getLast?_concat] at he
    simp only [Option.mem_some_iff] at he
    subst he
    simp

theorem invB_stepInterp {ts : ℚ} {st : SplitState} (p c : Pt) (n k : ℕ)
    (h : InvB st) : InvB (stepInterp ts p c n st k) := by
  unfold stepInterp
  dsimp only
  split
  · exact invB_emit h.1 h.2.1 h.2.2 _ _
  · exact h

theorem invB_append {st : SplitState} (c : Pt) (tk : ℤ × ℤ) (h : InvB st) :
    InvB { emitted := st.emitted, seg := st.seg ++ [c], tile := tk } := by
  refine ⟨h.1, by simp, ?_⟩
  intro e he
  rw [h.2.2 e he]
  rcases hseg : st.seg with _ | ⟨s0, srest⟩
  · exact absurd hseg h.2.1
  · rfl

theorem invB_cut {ts : ℚ} (c : Pt) (st1 : SplitState) (h1 : InvB st1) :
    InvB (if tile_xy c.1 c.2 ts ≠ st1.tile then
        { emitted := add_segment st1.emitted st1.tile (st1.seg ++ [c]),
          seg := [c], tile := tile_xy c.1 c.2 ts }
      else { st1 with seg := st1.seg ++ [c] }) := by
  split
  · exact invB_emit h1.1 h1.2.1 h1.2.2 _ _
  · exact invB_append c _ h1

theorem invB_processPoint {ts : ℚ} {st : SplitState} (pp : Pt × Pt)
    (h : InvB st) : InvB (processPoint ts st pp) := by
  unfold processPoint
  dsimp only
  split
  · exact invB_append pp.2 _ h
  · refine invB_cut pp.2 _ ?_
    split
    · exact foldl_preserve _ (fun a b ha => invB_stepInterp _ _ _ _ ha) _ _ h
    · exact h

theorem split_sharesEndpoints (pts : List Pt) (ts : ℚ) :
    SharesEndpoints (split_polyline_by_tiles pts ts) := by
  unfold split_polyline_by_tiles
  match pts with
  | [] => exact List.chain'_nil
  | [p] => exact List.chain'_nil
  | p0 :: p1 :: rest =>
    dsimp only
    have h0 : InvB { emitted := [], seg := [p0], tile := tile_xy p0.1 p0.2 ts } := by
      refine ⟨List.chain'_nil, by simp, ?_⟩
      intro e he
      cases he
    have hF : InvB (((p0 :: p1 :: rest).zip (p1 :: rest)).foldl
        (processPoint ts)
        { emitted := [], seg := [p0], tile := tile_xy p0.1 p0.2 ts }) :=
      foldl_preserve _ (fun a b ha => invB_processPoint b ha) _ _ h0
    unfold add_segment
    split
    · unfold SharesEndpoints
      rw [List.chain'_append]
      refine ⟨hF.1, List.chain'_singleton _, ?_⟩
      intro x hx y hy
      simp only [List.head?_cons, Option.mem_some_iff] at hy
      subst hy
      exact hF.2.2 x hx
    · exact hF.1

/-- C1, counterexample: for the 3000-meter straight road with tile size
1000, the fragment keyed to tile (0, 0) contains the vertex (9000/7, 0),
which lies in tile (1, 0), so that fragment does not lie entirely within
the tile it is keyed to. -/
theorem c1_counterexample :
    (split_polyline_by_tiles [((0 : ℚ), 0), (3000, 0)] 1000).head? =
      some ((0, 0), [(0, 0), (9000/7, 0)]) ∧
    tile_xy (9000/7) 0 1000 = (1, 0) := by
  constructor
  · rw [split3000_eval]
    rfl
  · unfold tile_xy
    norm_num [Int.floor_eq_iff]

/-- C1, amended: every vertex of a fragment emitted by
`split_polyline_by_tiles` under key (tx, ty), except possibly the
fragment's final vertex (the crossing point, which may lie in the adjacent
tile), satisfies `tile_xy vertex = (tx, ty)`; and the 3000-meter straight
road crossing two tile boundaries with tile size 1000 produces exactly 3
fragments, keyed to the three tiles (0,0), (1,0), (2,0). -/
theorem c1_fragment_confinement :
    (∀ (pts : List Pt) (ts : ℚ), 0 < ts →
      ∀ e ∈ split_polyline_by_tiles pts ts, ∀ v ∈ e.2.dropLast,
        tile_xy v.1 v.2 ts = e.1) ∧
    (split_polyline_by_tiles [((0 : ℚ), 0), (3000, 0)] 1000).map Prod.fst =
      [(0, 0), (1, 0), (2, 0)] := by
  constructor
  · intro pts ts _ e he v hv
    exact split_fragsOk pts ts e he v hv
  · rw [split3000_eval]
    rfl

/-- C1, witness: the confinement theorem applied to the 3000-meter road,
at the first vertex of the first fragment. -/
theorem c1_fragment_confinement_witness :
    tile_xy (0 : ℚ) 0 1000 = ((0 : ℤ), (0 : ℤ)) := by
  refine c1_fragment_confinement.1 [((0 : ℚ), 0), (3000, 0)] 1000 (by norm_num)
    ((0, 0), [(0, 0), (9000/7, 0)]) ?_ (0, 0) ?_
  · rw [split3000_eval]
    exact List.mem_cons_self _ _
  · simp

/-- C2: for every input polyline and tile size > 0, any two consecutive
fragments emitted by `split_polyline_by_tiles` (in emission order from the
same original polyline) share their boundary point exactly: the last point
of the earlier fragment equals the first point of the next. -/
theorem c2_consecutive_fragments_share_endpoints :
    ∀ (pts : List Pt) (ts : ℚ), 0 < ts →
      SharesEndpoints (split_polyline_by_tiles pts ts) :=
  fun pts ts _ => split_sharesEndpoints pts ts

/-- C2, witness: the sharing theorem at the concrete 3000-meter road with
tile size 1000. -/
theorem c2_consecutive_fragments_share_endpoints_witness :
    SharesEndpoints (split_polyline_by_tiles [((0 : ℚ), 0), (3000, 0)] 1000) :=
  c2_consecutive_fragments_share_endpoints [((0 : ℚ), 0), (3000, 0)] 1000
    (by norm_num)

theorem selectIdx_sublist (K : Finset ℕ) :
    ∀ (i : ℕ) (l : List Pt), List.Sublist (selectIdx K i l) l
  | _, [] => List.Sublist.refl _
  | i, a :: l => by
    unfold selectIdx
    split
    · exact List.Sublist.cons₂ a (selectIdx_sublist K (i + 1) l)
    · exact List.Sublist.cons a (selectIdx_sublist K (i + 1) l)

theorem selectIdx_getLast_mem (K : Finset ℕ) :
    ∀ (l : List Pt) (i : ℕ) (h : l ≠ []), (i + l.length - 1) ∈ K →
      l.getLast h ∈ selectIdx K i l
  | [], _, h, _ => absurd rfl h
  | [a], i, _, hK => by
    unfold selectIdx
    have hi : i + [a].length - 1 = i := by simp
    rw [hi] at hK
    rw [if_pos hK]
    simp [List.getLast]
  | a :: b :: l, i, _, hK => by
    have hne : b :: l ≠ [] := by simp
    have hK2 : (i + 1) + (b :: l).length - 1 ∈ K := by
      have he : (i + 1) + (b :: l).length - 1 = i + (a :: b :: l).length - 1 := by
        simp
        omega
      rw [he]
      exact hK
    have ih := selectIdx_getLast_mem K (b :: l) (i + 1) hne hK2
    rw [List.getLast_cons hne]
    unfold selectIdx
    split
    · exact List.mem_cons_of_mem _ ih
    · exact ih

theorem dpOpen_cons (a : Pt) (l : List Pt) (eps : ℚ) :
    dpOpen (a :: l) eps = a ::
      selectIdx (insert 0 (insert ((a :: l).length - 1)
        (dpMark (a :: l) eps 0 ((a :: l).length - 1)))) 1 l := by
  unfold dpOpen
  simp only [selectIdx]
  rw [if_pos (Finset.mem_insert_self _ _)]

theorem dpOpen_sublist (pts : List Pt) (eps : ℚ) :
    List.Sublist (dpOpen pts eps) pts :=
  selectIdx_sublist _ 0 pts

theorem dpOpen_getLast_mem (pts : List Pt) (eps : ℚ) (h : pts ≠ []) :
    pts.getLast h ∈ dpOpen pts eps := by
  refine selectIdx_getLast_mem _ pts 0 h ?_
  simp only [Nat.zero_add]
  exact Finset.mem_insert.2 (Or.inr (Finset.mem_insert_self _ _))

theorem head?_dropLast_cons (a b : Pt) (l : List Pt) :
    (a :: b :: l).dropLast.head? = some a := by
  rcases l with _ | ⟨c, l⟩ <;> simp [List.dropLast]

theorem mem_of_head?_eq {a : Pt} {l : List Pt} (h : l.head? = some a) :
    a ∈ l := by
  cases l with
  | nil => cases h
  | cons x xs =>
    simp only [List.head?_cons, Option.some.injEq] at h
    subst h
    exact List.mem_cons_self _ _

theorem mem_of_getLast?_eq {a : Pt} {l : List Pt} (h : l.getLast? = some a) :
    a ∈ l := by
  have hne : l ≠ [] := by
    intro he
    subst he
    cases h
  rw [List.getLast?_eq_getLast_of_ne_nil hne] at h
  simp only [Option.some.injEq] at h
  subst h
  exact List.getLast_mem hne

theorem simplify_props (points : List Pt) (eps : ℚ) :
    List.Sublist (simplify_douglas_peucker points eps) points ∧
    (∀ a, points.head? = some a → a ∈ simplify_douglas_peucker points eps) ∧
    (∀ b, points.getLast? = some b → b ∈ simplify_douglas_peucker points eps) := by
  by_cases h4 : points.length < 4
  · rw [simplify_douglas_peucker, if_pos h4]
    exact ⟨List.Sublist.refl _,
      fun a ha => mem_of_head?_eq ha,
      fun b hb => mem_of_getLast?_eq hb⟩
  · rcases points with _ | ⟨a, _ | ⟨b, rest2⟩⟩
    · exact absurd (by simp) h4
    · exact absurd (by simp) h4
    rw [simplify_douglas_peucker, if_neg h4]
    dsimp only
    by_cases hc : (a :: b :: rest2).head? = (a :: b :: rest2).getLast?
    · rw [if_pos hc, if_pos hc]
      have hdl : (a :: b :: rest2).dropLast = a :: (b :: rest2).dropLast := rfl
      have hlast : (a :: b :: rest2).getLast (by simp) = a := by
        have hg := List.getLast?_eq_getLast_of_ne_nil
          (l := a :: b :: rest2) (by simp)
        rw [hg] at hc
        simp only [List.head?_cons, Option.some.injEq] at hc
        exact hc.symm
      have hsplit : a :: b :: rest2 = (a :: (b :: rest2).dropLast) ++ [a] := by
        conv_lhs => rw [← List.dropLast_append_getLast
          (l := a :: b :: rest2) (by simp)]
        rw [hlast, hdl]
      split
      · exact ⟨List.Sublist.refl _,
          fun x hx => mem_of_head?_eq hx,
          fun y hy => mem_of_getLast?_eq hy⟩
      · rw [hdl, dpOpen_cons]
        dsimp only [List.head?_cons]
        refine ⟨?_, ?_, ?_⟩
        · conv_rhs => rw [hsplit]
          refine List.Sublist.append ?_ (List.Sublist.refl _)
          rw [← dpOpen_cons]
          exact dpOpen_sublist _ _
        · intro x hx
          simp only [List.head?_cons, Option.some.injEq] at hx
          subst hx
          exact List.mem_append_left _ (List.mem_cons_self _ _)
        · intro y hy
          rw [List.getLast?_eq_getLast_of_ne_nil (l := a :: b :: rest2)
            (by simp), Option.some.injEq] at hy
          rw [hlast] at hy
          subst hy
          exact List.mem_append_left _ (List.mem_cons_self _ _)
    · rw [if_neg hc, if_neg hc]
      split
      · exact ⟨List.Sublist.refl _,
          fun x hx => mem_of_head?_eq hx,
          fun y hy => mem_of_getLast?_eq hy⟩
      · refine ⟨dpOpen_sublist _ _, ?_, ?_⟩
        · intro x hx
          simp only [List.head?_cons, Option.some.injEq] at hx
          subst hx
          rw [dpOpen_cons]
          exact List.mem_cons_self _ _
        · intro y hy
          have hne : (a :: b :: rest2) ≠ [] := by simp
          rw [List.getLast?_eq_getLast_of_ne_nil hne, Option.some.injEq] at hy
          subst hy
          exact dpOpen_getLast_mem _ _ hne

/-- C3, counterexample: for tolerance 0 the simplification does not return
the original sequence: on four collinear points the two interior vertices
are at distance exactly 0 from the chord, the strict comparison
`max_dist > epsilon` fails, and they are dropped. -/
theorem c3_counterexample :
    simplify_douglas_peucker [((0 : ℚ), 0), (1, 0), (2, 0), (3, 0)] 0 =
      [(0, 0), (3, 0)] ∧
    simplify_douglas_peucker [((0 : ℚ), 0), (1, 0), (2, 0), (3, 0)] 0 ≠
      [((0 : ℚ), 0), (1, 0), (2, 0), (3, 0)] := by
  have hmark : dpMark [((0 : ℚ), 0), (1, 0), (2, 0), (3, 0)] 0 0 3 = ∅ := by
    have hff : findFarthest [((0 : ℚ), 0), (1, 0), (2, 0), (3, 0)] 0 3 =
        (0, some 1) := by
      norm_num [findFarthest, point_line_distance_sq, List.range']
    unfold dpMark
    rw [hff]
    norm_num
  constructor
  · norm_num [simplify_douglas_peucker, dpOpen, hmark, selectIdx,
      Prod.ext_iff, -Prod.mk_zero_zero]
  · norm_num [simplify_douglas_peucker, dpOpen, hmark, selectIdx,
      Prod.ext_iff, -Prod.mk_zero_zero]

/-- C3, amended: for every point sequence and every tolerance,
`simplify_douglas_peucker` returns a subsequence of the input (a sublist,
preserving relative order) that contains the first and the last point of a
nonempty input.  For tolerance 0 the result is not in general the original
sequence: interior vertices at distance exactly 0 from their chord
(collinear points) are still dropped. -/
theorem c3_dp_subsequence :
    ∀ (points : List Pt) (epsilon : ℚ),
      List.Sublist (simplify_douglas_peucker points epsilon) points ∧
      (∀ a, points.head? = some a →
        a ∈ simplify_douglas_peucker points epsilon) ∧
      (∀ b, points.getLast? = some b →
        b ∈ simplify_douglas_peucker points epsilon) :=
  fun points epsilon => simplify_props points epsilon

/-- C3, witness: the subsequence theorem applied to a concrete 4-point
zig-zag, giving membership of its first point in the simplified output. -/
theorem c3_dp_subsequence_witness :
    ((0 : ℚ), (0 : ℚ)) ∈
      simplify_douglas_peucker [((0 : ℚ), 0), (1, 1), (2, 0), (3, 1)] (1/2) :=
  (c3_dp_subsequence [((0 : ℚ), 0), (1, 1), (2, 0), (3, 1)] (1/2)).2.1
    (0, 0) rfl

theorem building_square_eval :
    process_building_ring [((-50 : ℚ), -50), (50, -50), (50, 50), (-50, 50)]
      1000 (4/5) 12 500 =
    some ((0, 0), [(-550, -550), (-450, -550), (-450, -450), (-550, -450)]) := by
  have hff01 : findFarthest [((-50 : ℚ), -50), (50, -50), (50, 50), (-50, 50)]
      0 1 = (-1, none) := by
    norm_num [findFarthest, List.range']
  have hff12 : findFarthest [((-50 : ℚ), -50), (50, -50), (50, 50), (-50, 50)]
      1 2 = (-1, none) := by
    norm_num [findFarthest, List.range']
  have hff23 : findFarthest [((-50 : ℚ), -50), (50, -50), (50, 50), (-50, 50)]
      2 3 = (-1, none) := by
    norm_num [findFarthest, List.range']
  have hff13 : findFarthest [((-50 : ℚ), -50), (50, -50), (50, 50), (-50, 50)]
      1 3 = (5000, some 2) := by
    norm_num [findFarthest, point_line_distance_sq, List.range']
  have hff03 : findFarthest [((-50 : ℚ), -50), (50, -50), (50, 50), (-50, 50)]
      0 3 = (10000, some 1) := by
    norm_num [findFarthest, point_line_distance_sq, List.range']
  have hm01 : dpMark [((-50 : ℚ), -50), (50, -50), (50, 50), (-50, 50)]
      (4/5) 0 1 = ∅ := by
    unfold dpMark
    rw [hff01]
  have hm12 : dpMark [((-50 : ℚ), -50), (50, -50), (50, 50), (-50, 50)]
      (4/5) 1 2 = ∅ := by
    unfold dpMark
    rw [hff12]
  have hm23 : dpMark [((-50 : ℚ), -50), (50, -50), (50, 50), (-50, 50)]
      (4/5) 2 3 = ∅ := by
    unfold dpMark
    rw [hff23]
  have hm13 : dpMark [((-50 : ℚ), -50), (50, -50), (50, 50), (-50, 50)]
      (4/5) 1 3 = {2} := by
    unfold dpMark
    rw [hff13]
    dsimp only
    rw [if_pos (by norm_num : (4 : ℚ)/5 < 0 ∨ (4 : ℚ)/5 * (4/5) < 5000)]
    rw [dif_pos (by norm_num : 1 < 2 ∧ 2 < 3)]
    rw [hm12, hm23]
    simp
  have hm03 : dpMark [((-50 : ℚ), -50), (50, -50), (50, 50), (-50, 50)]
      (4/5) 0 3 = {1, 2} := by
    unfold dpMark
    rw [hff03]
    dsimp only
    rw [if_pos (by norm_num : (4 : ℚ)/5 < 0 ∨ (4 : ℚ)/5 * (4/5) < 10000)]
    rw [dif_pos (by norm_num : 0 < 1 ∧ 1 < 3)]
    rw [hm01, hm13]
    decide
  have hsimp : simplify_douglas_peucker
      [((-50 : ℚ), -50), (50, -50), (50, 50), (-50, 50)] (4/5) =
      [((-50 : ℚ), -50), (50, -50), (50, 50), (-50, 50)] := by
    norm_num [simplify_douglas_peucker, dpOpen, hm03, selectIdx, Prod.ext_iff]
  have hr4 : List.range 4 = [0, 1, 2, 3] := rfl
  norm_num [process_building_ring, polygon_area, listMax, listMin,
    ring_without_duplicate_closure, hsimp, tile_xy, tile_center, hr4,
    List.getD, Prod.ext_iff, Int.floor_eq_iff]

/-- C4, counterexample: the square is assigned to tile (0, 0) as claimed,
but its emitted tile-local vertices sum to (-2000, -2000), not (0, 0). -/
theorem c4_counterexample :
    process_building_ring [((-50 : ℚ), -50), (50, -50), (50, 50), (-50, 50)]
        1000 (4/5) 12 500 =
      some ((0, 0), [(-550, -550), (-450, -550), (-450, -450), (-550, -450)]) ∧
    ¬ (([((-550 : ℚ), (-550 : ℚ)), (-450, -550), (-450, -450),
          (-550, -450)].map Prod.fst).sum = 0 ∧
       ([((-550 : ℚ), (-550 : ℚ)), (-450, -550), (-450, -450),
          (-550, -450)].map Prod.snd).sum = 0) := by
  refine ⟨building_square_eval, ?_⟩
  norm_num

/-- C4, amended: with tile size 1000, default simplification tolerance 0.8
and default building filters, the origin-centred square is assigned to
tile (0, 0); its emitted tile-local vertices sum to (-2000, -2000) — that
is, minus 4 times the tile center (500, 500) — so the vertices re-expressed
relative to the projected origin (adding the tile center back) sum to
(0, 0). -/
theorem c4_building_roundtrip :
    process_building_ring [((-50 : ℚ), -50), (50, -50), (50, 50), (-50, 50)]
        1000 (4/5) 12 500 =
      some ((0, 0), [(-550, -550), (-450, -550), (-450, -450), (-550, -450)]) ∧
    ([((-550 : ℚ), (-550 : ℚ)), (-450, -550), (-450, -450),
        (-550, -450)].map Prod.fst).sum = -2000 ∧
    ([((-550 : ℚ), (-550 : ℚ)), (-450, -550), (-450, -450),
        (-550, -450)].map Prod.snd).sum = -2000 ∧
    ([((-550 : ℚ), (-550 : ℚ)), (-450, -550), (-450, -450),
        (-550, -450)].map (fun q => q.1 + (tile_center 0 0 1000).1)).sum = 0 ∧
    ([((-550 : ℚ), (-550 : ℚ)), (-450, -550), (-450, -450),
        (-550, -450)].map (fun q => q.2 + (tile_center 0 0 1000).2)).sum = 0 := by
  refine ⟨building_square_eval, ?_, ?_, ?_, ?_⟩ <;>
    norm_num [tile_center]

/-- C5, counterexample: the decoder applies the same `len(seg) >= 2` filter
to every shape kind, so a polygon-typed record (shape type 5) with a
2-point part is yielded with that degenerate part intact; polygon parts
with fewer than 3 points are not dropped at decode time. -/
theorem c5_counterexample :
    iter_shp_record 5 [0] [((0 : ℚ), 0), (1, 1)] =
      some ⟨5, [[((0 : ℚ), 0), (1, 1)]]⟩ ∧
    ([((0 : ℚ), (0 : ℚ)), (1, 1)] : List Pt).length < 3 := by
  constructor
  · rfl
  · norm_num

/-- C5, amended: every part of every record yielded by the decoder has at
least 2 points, for polyline- and polygon-shaped records alike; a polygon
part with exactly 2 points survives decoding (the consumers drop it later
with their own `len(part) < 3` checks). -/
theorem c5_decoder_part_invariant :
    ∀ (st : ℤ) (ps : List ℕ) (pts : List Pt) (r : ShpRecordQ),
      iter_shp_record st ps pts = some r →
      ∀ part ∈ r.parts, 2 ≤ part.length := by
  intro st ps pts r h part hp
  unfold iter_shp_record at h
  split_ifs at h
  simp only [Option.some.injEq] at h
  subst h
  unfold assemble_parts at hp
  simp only at hp
  rcases List.mem_filter.1 hp with ⟨-, hlen⟩
  exact of_decide_eq_true hlen

/-- C5, witness: the part invariant applied to a concrete polyline record
with one 2-point part. -/
theorem c5_decoder_part_invariant_witness :
    2 ≤ ([((0 : ℚ), (0 : ℚ)), (1, 1)] : List Pt).length := by
  refine c5_decoder_part_invariant 3 [0] [((0 : ℚ), 0), (1, 1)]
    ⟨3, [[((0 : ℚ), 0), (1, 1)]]⟩ rfl [((0 : ℚ), 0), (1, 1)] ?_
  exact List.mem_singleton.2 rfl

theorem append_line_bound {max_open : ℕ} {st : LruState} {p l : String}
    (h : st.openKeys.length ≤ max_open) :
    (append_line max_open st p l).openKeys.length ≤ max_open := by
  unfold append_line
  dsimp only
  by_cases hm : p ∈ st.openKeys
  · rw [if_pos hm]
    have hlen : (st.openKeys.erase p ++ [p]).length ≤ max_open + 1 := by
      rw [List.length_append, List.length_erase_of_mem hm]
      simp only [List.length_singleton]
      omega
    split
    · next hlt =>
      simp only [List.length_drop]
      omega
    · next hge =>
      show (st.openKeys.erase p ++ [p]).length ≤ max_open
      omega
  · rw [if_neg hm]
    have hlen : (st.openKeys ++ [p]).length ≤ max_open + 1 := by
      rw [List.length_append]
      simp only [List.length_singleton]
      omega
    split
    · next hlt =>
      simp only [List.length_drop]
      omega
    · next hge =>
      show (st.openKeys ++ [p]).length ≤ max_open
      omega

theorem append_line_fs (max_open : ℕ) (st : LruState) (p l q : String) :
    (append_line max_open st p l).fs q =
      if q = p then st.fs q ++ [l] else st.fs q := by
  unfold append_line
  dsimp only
  split <;> split <;> rfl

theorem runWriter_fs (max_open : ℕ) :
    ∀ (ops : List (String × String)) (st : LruState) (q : String),
      (runWriter max_open st ops).fs q =
        st.fs q ++ (ops.filter (fun op => op.1 = q)).map Prod.snd
  | [], st, q => by simp [runWriter]
  | (p, l) :: ops, st, q => by
    have ih := runWriter_fs max_open ops (append_line max_open st p l) q
    unfold runWriter at ih ⊢
    simp only [List.foldl_cons] at ih ⊢
    rw [ih, append_line_fs]
    by_cases hq : q = p
    · subst hq
      rw [if_pos rfl, List.filter_cons, if_pos (by simp)]
      simp
    · rw [if_neg hq, List.filter_cons,
        if_neg (by simpa using fun he => hq he.symm)]

/-- C6: the streaming aggregator keeps at most `max_open` channels open
after every `append_line` call (evicting from the least-recently-written
end of the recency order), and no written line is ever lost: after any
stream of `append_line` calls the contents of each path are exactly its
prior contents followed by all lines appended to it, in order — eviction
closes (flushes) a channel and a later append reopens it in append mode. -/
theorem c6_lru_writer :
    ∀ (max_open : ℕ) (st : LruState) (ops : List (String × String)),
      st.openKeys.length ≤ max_open →
      (runWriter max_open st ops).openKeys.length ≤ max_open ∧
      ∀ q, (runWriter max_open st ops).fs q =
        st.fs q ++ (ops.filter (fun op => op.1 = q)).map Prod.snd := by
  intro max_open st ops h
  constructor
  · unfold runWriter
    exact @foldl_preserve LruState (String × String)
      (fun s => s.openKeys.length ≤ max_open)
      (fun s op => append_line max_open s op.1 op.2)
      (fun a b ha => append_line_bound ha) ops st h
  · intro q
    exact runWriter_fs max_open ops st q

/-- C6, witness: the aggregator theorem at a concrete 4-write stream with
bound 2 (which forces an eviction and a reopen of channel a). -/
theorem c6_lru_writer_witness :
    (runWriter 2 ⟨[], fun _ => []⟩
      [(("a"), ("1")), (("b"), ("2")), (("c"), ("3")),
       (("a"), ("4"))]).openKeys.length ≤ 2 :=
  (c6_lru_writer 2 ⟨[], fun _ => []⟩
    [(("a"), ("1")), (("b"), ("2")), (("c"), ("3")), (("a"), ("4"))]
    (by simp)).1

/-- C7, counterexample: in the shapefile pipeline the building height comes
from `building_height_default` applied to the `type` attribute; the textual
values "12.5m" and "3" are not in the type table and resolve to the 12.0
default, not to 12.5 and 9.0. -/
theorem c7_counterexample :
    building_height_default ("12.5m") = 12 ∧ (12 : ℚ) ≠ 25/2 ∧
    building_height_default ("3") = 12 ∧ (12 : ℚ) ≠ 9 := by
  refine ⟨by decide, by norm_num, by decide, by norm_num⟩

/-- C7, amended: the shapefile pipeline's `building_height_default` is a
pure building-type table with default 12.0 — "12.5m", "3" and the absent
value all resolve to 12.0 there.  The claimed textual-height semantics
("12.5m" to 12.5, "3" levels to 9.0 = 3 x 3.0, absent to 12.0) is
implemented by `building_height_m` of the GeoJSON converter, not by the
shapefile pipeline. -/
theorem c7_building_height :
    building_height_default ("12.5m") = 12 ∧
    building_height_default ("3") = 12 ∧
    building_height_default ("") = 12 ∧
    building_height_m (some ⟨some (.str ("12.5m")), none, none⟩) = 25/2 ∧
    building_height_m (some ⟨none, some (.str ("3")), none⟩) = 9 ∧
    building_height_m none = 12 := by
  refine ⟨by decide, by decide, by decide, ?_, ?_, rfl⟩
  · rw [show building_height_m (some ⟨some (.str ("12.5m")), none, none⟩) =
      1 * (((12 : ℕ) : ℚ) + ((5 : ℕ) : ℚ) / (10 : ℚ)^1) from rfl]
    norm_num
  · rw [show building_height_m (some ⟨none, some (.str ("3")), none⟩) =
      (1 * (((3 : ℕ) : ℚ) + ((0 : ℕ) : ℚ) / (10 : ℚ)^0)) * 3 from rfl]
    norm_num

/-- C8, counterexample: with no category file pairs present, zero
categories are found, yet the exit status is 0, not non-zero. -/
theorem c8_counterexample :
    categories_found [⟨false, false⟩, ⟨false, false⟩, ⟨false, false⟩,
        ⟨false, false⟩, ⟨false, false⟩, ⟨false, false⟩, ⟨false, false⟩,
        ⟨false, false⟩] = 0 ∧
    ¬ main_exit_status [⟨false, false⟩, ⟨false, false⟩, ⟨false, false⟩,
        ⟨false, false⟩, ⟨false, false⟩, ⟨false, false⟩, ⟨false, false⟩,
        ⟨false, false⟩] ≠ 0 := by
  constructor
  · rfl
  · intro hne
    exact hne rfl

/-- C8, amended: `main` returns 0 on every successful run, whatever the
number of categories found; in particular a run that finds no input
categories still terminates with exit status 0 (writing zero tiles). -/
theorem c8_exit_status :
    (∀ cats : List CategoryFiles, main_exit_status cats = 0) ∧
    main_exit_status [] = 0 ∧ categories_found [] = 0 :=
  ⟨fun _ => rfl, rfl, rfl⟩

theorem pip_edge_self (p b : Pt) : pip_edge p b b = false := by
  simp [pip_edge]

theorem foldl_toggle (p : Pt) :
    ∀ (l : List (Pt × Pt)) (b : Bool),
      l.foldl (fun inside e => if pip_edge p e.1 e.2 then !inside else inside) b =
        xor b (Nat.bodd (l.countP (fun e => pip_edge p e.1 e.2)))
  | [], b => by simp
  | a :: l, b => by
    rw [List.foldl_cons, foldl_toggle p l, List.countP_cons]
    by_cases ha : pip_edge p a.1 a.2
    · rw [if_pos ha, if_pos ha]
      cases b <;> simp [Nat.bodd_add]
    · rw [if_neg ha, if_neg (by simpa using ha)]
      simp

theorem zip_take_self {α : Type} :
    ∀ (u v : List α), u.zip (v.take u.length) = u.zip v
  | [], _ => by simp
  | _ :: _, [] => by simp
  | a :: u, b :: v => by
    simp only [List.length_cons, List.take_succ_cons, List.zip_cons_cons]
    rw [zip_take_self u v]

theorem zip_cyclic_cons (b : Pt) (r2 : List Pt) (d : Pt) :
    (b :: r2).zip ((b :: r2).getLastD d :: (b :: r2).dropLast) =
      (b, (b :: r2).getLastD d) :: r2.zip (b :: r2) := by
  rw [List.zip_cons_cons]
  congr 1
  have hdl : (b :: r2).dropLast = (b :: r2).take r2.length := by
    rw [List.dropLast_eq_take]
    simp
  rw [hdl, zip_take_self]

theorem getLastD_of_ne_nil {v : List Pt} (h : v ≠ []) (d1 d2 : Pt) :
    v.getLastD d1 = v.getLastD d2 := by
  rw [List.getLastD_eq_getLast?, List.getLastD_eq_getLast?,
    List.getLast?_eq_getLast_of_ne_nil h]
  rfl

theorem zip_append_singleton (x d : Pt) :
    ∀ (u v : List Pt), v.length = u.length + 1 →
      (u ++ [x]).zip v = u.zip v ++ [(x, v.getLastD d)] := by
  intro u
  induction u with
  | nil =>
    intro v h
    rcases v with _ | ⟨y, _ | ⟨z, v⟩⟩ <;> simp_all
  | cons a u ih =>
    intro v h
    rcases v with _ | ⟨c, v⟩
    · simp at h
    · simp only [List.cons_append, List.zip_cons_cons]
      rw [ih v (by simpa using h)]
      have hv : v ≠ [] := by
        intro he
        subst he
        simp at h
      rw [List.getLastD_cons, getLastD_of_ne_nil hv d c]

theorem pip_closed_eq (p b : Pt) (r2 : List Pt) (h3 : 3 ≤ (b :: r2).length) :
    point_in_polygon p ((b :: r2) ++ [b]) = point_in_polygon p (b :: r2) := by
  unfold point_in_polygon
  rw [if_neg (by simp at h3 ⊢; omega), if_neg (by simp at h3 ⊢; omega)]
  have hgl2 : ((b :: r2) ++ [b]).getLastD (0, 0) = b := by
    rw [List.getLastD_eq_getLast?, List.getLast?_concat]
    rfl
  have hdl2 : ((b :: r2) ++ [b]).dropLast = b :: r2 := List.dropLast_concat
  rw [hgl2, hdl2]
  rw [List.cons_append, List.zip_cons_cons]
  rw [zip_append_singleton b (0, 0) r2 (b :: r2) (by simp)]
  rw [zip_cyclic_cons b r2 (0, 0)]
  rw [foldl_toggle, foldl_toggle]
  congr 1
  simp only [List.countP_cons, List.countP_append, pip_edge_self]
  simp

/-- C9, counterexample: for the degenerate closed ring [a, b, a] the
containment results differ: the `1e-30` epsilon added to the two edge
denominators makes the two crossing thresholds of the doubled edge slightly
unequal, so a query point between them is reported inside, while the
deduplicated 2-point ring always reports false (fewer than 3 vertices). -/
theorem c9_counterexample :
    point_in_polygon ((10^30 - 2) / (2 * 10^30 - 2), 1/2)
      [((0 : ℚ), 0), (1, 1), (0, 0)] = true ∧
    point_in_polygon ((10^30 - 2) / (2 * 10^30 - 2), 1/2)
      (ring_without_duplicate_closure [((0 : ℚ), 0), (1, 1), (0, 0)]) = false := by
  constructor
  · norm_num [point_in_polygon, pip_edge, List.dropLast, Prod.ext_iff]
  · norm_num [ring_without_duplicate_closure, point_in_polygon, List.dropLast]

/-- C9, amended: the point-in-polygon test gives the same result with or
without the duplicated closure vertex whenever the deduplicated ring still
has at least 3 points; for degenerate closed rings (deduplicated length
less than 3, such as [a, b, a]) the two can disagree. -/
theorem c9_pip_closure_invariance :
    ∀ (p : Pt) (ring : List Pt), ring.head? = ring.getLast? →
      3 ≤ (ring_without_duplicate_closure ring).length →
      point_in_polygon p ring =
        point_in_polygon p (ring_without_duplicate_closure ring) := by
  intro p ring hc h3
  unfold ring_without_duplicate_closure at h3 ⊢
  by_cases h2 : 2 ≤ ring.length ∧ ring.head? = ring.getLast?
  · rw [if_pos h2] at h3 ⊢
    rcases ring with _ | ⟨b, _ | ⟨c, rest⟩⟩
    · simp at h3
    · simp at h3
    have hne : (b :: c :: rest) ≠ [] := by simp
    have hlast : (b :: c :: rest).getLast hne = b := by
      rw [List.getLast?_eq_getLast_of_ne_nil hne] at hc
      simp only [List.head?_cons, Option.some.injEq] at hc
      exact hc.symm
    have hdrop : (b :: c :: rest).dropLast = b :: (c :: rest).dropLast := rfl
    have hsplit : b :: c :: rest = (b :: (c :: rest).dropLast) ++ [b] := by
      have hx := List.dropLast_append_getLast hne
      rw [hlast, hdrop] at hx
      exact hx.symm
    rw [hdrop] at h3 ⊢
    conv_lhs => rw [hsplit]
    exact pip_closed_eq p b ((c :: rest).dropLast) h3
  · rw [if_neg h2]

/-- C9, witness: the invariance theorem applied to the closed unit square
ring, at a concrete interior query point. -/
theorem c9_pip_closure_invariance_witness :
    point_in_polygon ((1/2 : ℚ), (1/2 : ℚ))
        [((0 : ℚ), 0), (1, 0), (1, 1), (0, 1), (0, 0)] =
      point_in_polygon ((1/2 : ℚ), (1/2 : ℚ))
        (ring_without_duplicate_closure
          [((0 : ℚ), 0), (1, 0), (1, 1), (0, 1), (0, 0)]) := by
  refine c9_pip_closure_invariance ((1/2 : ℚ), (1/2 : ℚ))
    [((0 : ℚ), 0), (1, 0), (1, 1), (0, 1), (0, 0)] rfl ?_
  norm_num [ring_without_duplicate_closure, List.dropLast]

theorem split10_eval : split_polyline_by_tiles [((0 : ℚ), 0), (10, 0)] 1000 =
    [((0, 0), [(0, 0), (10, 0)])] := by
  norm_num [split_polyline_by_tiles, processPoint, add_segment, tile_xy,
    Int.floor_eq_iff, Prod.ext_iff]

/-- C10: a railway record is emitted only if its `type` lowercases to
"rail" and its stripped `name` is non-empty; any other type (subway, tram,
...) and unnamed rail tracks produce no output at all, while a named
record of type "Rail" (case-insensitive match) does produce output. -/
theorem c10_railway_filter :
    (∀ (ts : ℚ) (rtype rname : String) (parts : List (List Pt)),
      lowerStr rtype ≠ ("rail") ∨ stripStr rname = ("") →
      process_railway_record ts rtype rname parts = []) ∧
    process_railway_record 1000 ("subway") ("Namboku Line")
      [[((0 : ℚ), 0), (10, 0)]] = [] ∧
    process_railway_record 1000 ("tram") ("T Line")
      [[((0 : ℚ), 0), (10, 0)]] = [] ∧
    process_railway_record 1000 ("rail") (" ")
      [[((0 : ℚ), 0), (10, 0)]] = [] ∧
    process_railway_record 1000 ("Rail") ("Tohoku Line")
      [[((0 : ℚ), 0), (10, 0)]] ≠ [] := by
  refine ⟨?_, ?_, ?_, ?_, ?_⟩
  · intro ts rtype rname parts h
    unfold process_railway_record
    rcases h with h | h
    · rw [if_pos h]
    · by_cases h1 : lowerStr rtype ≠ ("rail")
      · rw [if_pos h1]
      · rw [if_neg h1, if_pos h]
  · unfold process_railway_record
    rw [if_pos (by decide : lowerStr ("subway") ≠ ("rail"))]
  · unfold process_railway_record
    rw [if_pos (by decide : lowerStr ("tram") ≠ ("rail"))]
  · unfold process_railway_record
    rw [if_neg (by decide : ¬ lowerStr ("rail") ≠ ("rail")),
      if_pos (by decide : stripStr (" ") = (""))]
  · unfold process_railway_record
    rw [if_neg (by decide : ¬ lowerStr ("Rail") ≠ ("rail")),
      if_neg (by decide : ¬ stripStr ("Tohoku Line") = (""))]
    simp [split10_eval, -Prod.mk_zero_zero]

/-- C10, witness: the filter theorem applied to a concrete non-rail record. -/
theorem c10_railway_filter_witness :
    process_railway_record 1000 ("funicular") ("Some Line")
      [[((0 : ℚ), 0), (5, 0)]] = [] :=
  c10_railway_filter.1 1000 ("funicular") ("Some Line")
    [[((0 : ℚ), 0), (5, 0)]] (Or.inl (by decide))
